import Mathlib

/-!
Verification of the Secret-Calculator expression engine
(src/client/screens: CalculatorScreen / NotesScreen).

The calculator core is embedded shallowly:

* `checkSecretCode`, `handleButtonPress` and the pieces of its input
  reducer (`applyInput`) are translated line by line from
  `CalculatorScreen.tsx`.
* The source evaluates the expression string by handing it to the
  JavaScript engine (`new Function("return " + expr)()` after a character
  whitelist).  That evaluation is embedded as a tokenizer plus a
  recursive-descent parser for the arithmetic fragment of the JavaScript
  expression grammar reachable through the whitelist
  (decimal literals, unary and binary `+ - * /`, parentheses,
  whitespace), with numbers modelled exactly over `ℚ` extended with
  IEEE-style infinities and NaN (`JSNum`).  Adjacent `--` / `++`
  (the JavaScript decrement/increment tokens, always a syntax error on
  literals) are rejected by the tokenizer as they are by the JavaScript
  lexer.  Binary-fraction rounding of IEEE doubles and the engine's
  exponent display format for very large or very small magnitudes are
  outside the model: arithmetic is exact and results are printed as plain
  decimal strings, which agrees with the engine on the calculator's
  supported magnitude range.
* The state of `CalculatorScreen` (expression, result, history, the
  just-calculated flag, the persisted history copy, and the navigation
  signal to the hidden notes screen) is a record `CalcState`; each button
  press is one step `handleButtonPress`.  `Date.now()` is passed in as an
  explicit `now` parameter.
-/

namespace SecretCalc

/-! ## Decimal numerals (kernel-reducible digit strings) -/

/-- The character of one decimal digit. -/
def digitCh (d : ℕ) : Char :=
  match d with
  | 0 => '0' | 1 => '1' | 2 => '2' | 3 => '3' | 4 => '4'
  | 5 => '5' | 6 => '6' | 7 => '7' | 8 => '8' | _ => '9'

/-- Little-endian base-10 digits of `n`, computed with explicit fuel so that
the kernel can evaluate it. -/
def toDigitsRev (fuel n : ℕ) : List ℕ :=
  match fuel with
  | 0 => []
  | f + 1 => if n = 0 then [] else n % 10 :: toDigitsRev f (n / 10)

/-- Big-endian digit list of `n` (`[0]` for zero). -/
def natList (n : ℕ) : List ℕ :=
  if n = 0 then [0] else (toDigitsRev n n).reverse

/-- Decimal numeral of `n` as a character list, as `Number.prototype.toString`
renders a natural number. -/
def natStr (n : ℕ) : List Char := (natList n).map digitCh

/-- Numeric value of a digit character. -/
def digitVal (c : Char) : ℕ := c.toNat - 48

/-- Value of a big-endian digit-character run. -/
def intval (cs : List Char) : ℕ := cs.foldl (fun a c => 10 * a + digitVal c) 0

/-! ## JavaScript numbers over exact rationals

Arithmetic is exact: a finite value is a fraction `num / den` with a
positive denominator, combined by cross multiplication (no gcd
normalization, so that every operation is kernel-computable).  `Frac.toRat`
interprets a fraction as the rational it stands for. -/

/-- An exact fraction; every constructor and operation below keeps
`0 < den`. -/
structure Frac where
  num : ℤ
  den : ℤ
deriving DecidableEq, Repr

/-- The rational a fraction denotes. -/
def Frac.toRat (f : Frac) : ℚ := (f.num : ℚ) / (f.den : ℚ)

/-- The fraction of a natural number. -/
def natFrac (n : ℕ) : Frac := ⟨n, 1⟩

/-- Exact addition. -/
def fadd (a b : Frac) : Frac := ⟨a.num * b.den + b.num * a.den, a.den * b.den⟩

/-- Exact negation. -/
def fneg (a : Frac) : Frac := ⟨-a.num, a.den⟩

/-- Exact multiplication. -/
def fmul (a b : Frac) : Frac := ⟨a.num * b.num, a.den * b.den⟩

/-- Exact division (the caller has ruled out `b.num = 0`); the sign moves
to the numerator so the denominator stays positive. -/
def fdivF (a b : Frac) : Frac :=
  if 0 ≤ b.num then ⟨a.num * b.den, a.den * b.num⟩
  else ⟨-(a.num * b.den), a.den * -b.num⟩

/-- A JavaScript number: an exact finite value, an infinity, or NaN. -/
inductive JSNum where
  | val (q : Frac)
  | inf
  | ninf
  | nan
deriving DecidableEq, Repr

/-- Negation. -/
def jneg : JSNum → JSNum
  | .val q => .val (fneg q)
  | .inf => .ninf
  | .ninf => .inf
  | .nan => .nan

/-- Addition with IEEE-style infinities. -/
def jadd : JSNum → JSNum → JSNum
  | .val a, .val b => .val (fadd a b)
  | .nan, _ => .nan
  | _, .nan => .nan
  | .inf, .ninf => .nan
  | .ninf, .inf => .nan
  | .inf, _ => .inf
  | _, .inf => .inf
  | .ninf, _ => .ninf
  | _, .ninf => .ninf

/-- Subtraction, `a - b = a + (-b)` as in IEEE arithmetic. -/
def jsub (a b : JSNum) : JSNum := jadd a (jneg b)

/-- Multiplication with IEEE-style infinities (`∞ * 0 = NaN`). -/
def jmul : JSNum → JSNum → JSNum
  | .val a, .val b => .val (fmul a b)
  | .nan, _ => .nan
  | _, .nan => .nan
  | .inf, .inf => .inf
  | .inf, .ninf => .ninf
  | .ninf, .inf => .ninf
  | .ninf, .ninf => .inf
  | .inf, .val q => if q.num = 0 then .nan else if 0 < q.num then .inf else .ninf
  | .val q, .inf => if q.num = 0 then .nan else if 0 < q.num then .inf else .ninf
  | .ninf, .val q => if q.num = 0 then .nan else if 0 < q.num then .ninf else .inf
  | .val q, .ninf => if q.num = 0 then .nan else if 0 < q.num then .ninf else .inf

/-- Division: a finite value divided by zero gives a signed infinity
(`0 / 0 = NaN`), matching the JavaScript `/` operator on these values. -/
def jdiv : JSNum → JSNum → JSNum
  | .val a, .val b =>
      if b.num = 0 then
        if a.num = 0 then .nan else if 0 < a.num then .inf else .ninf
      else .val (fdivF a b)
  | .nan, _ => .nan
  | _, .nan => .nan
  | .inf, .inf => .nan
  | .inf, .ninf => .nan
  | .ninf, .inf => .nan
  | .ninf, .ninf => .nan
  | .val _, .inf => .val (natFrac 0)
  | .val _, .ninf => .val (natFrac 0)
  | .inf, .val q => if 0 ≤ q.num then .inf else .ninf
  | .ninf, .val q => if 0 ≤ q.num then .ninf else .inf

/-- `isFinite`. -/
def jfinite : JSNum → Bool
  | .val _ => true
  | _ => false

/-! ## Character classes and the whitelist -/

/-- Operator characters of the calculator grammar. -/
def isOpChar (c : Char) : Bool := c = '+' || c = '-' || c = '*' || c = '/'

/-- Whitespace accepted by the `\s` class of the whitelist regex. -/
def wsChar (c : Char) : Bool :=
  c = ' ' || c = '\t' || c = '\n' || c = '\r' || c = '\x0b' || c = '\x0c'

/-- A character of a numeric literal. -/
def numChar (c : Char) : Bool := c.isDigit || c = '.'

/-- The whitelist `[\d+\-*/.\s()]` checked before evaluation. -/
def allowedChar (c : Char) : Bool :=
  c.isDigit || isOpChar c || c = '.' || c = '(' || c = ')' || wsChar c

/-- `expr.replace(/×/g, "*").replace(/÷/g, "/")` — both glyphs are single
characters, so the two replacements are one character map. -/
def glyphFix (c : Char) : Char :=
  if c = '×' then '*' else if c = '÷' then '/' else c

/-- Normalization of alternate multiplication/division glyphs. -/
def normalizeGlyphs (s : String) : String := String.mk (s.data.map glyphFix)

/-! ## Tokenizer -/

/-- Tokens of the arithmetic fragment. -/
inductive Tok where
  | num (q : Frac)
  | plus
  | minus
  | star
  | slash
  | lparen
  | rparen
deriving DecidableEq, Repr

/-- `10 ^ k` as an integer, through the structural natural-number power. -/
def ipow10 (k : ℕ) : ℤ := ((10 ^ k : ℕ) : ℤ)

/-- Value of a scanned numeric literal: at least one digit, at most one
decimal point (as in the JavaScript lexer's decimal literals); the value of
`ip.fp` is `(ip * 10^|fp| + fp) / 10^|fp|`. -/
def numVal (cs : List Char) : Option Frac :=
  if !cs.any Char.isDigit then none
  else
    match cs.count '.' with
    | 0 => some (natFrac (intval cs))
    | 1 =>
        let ip := cs.takeWhile (fun c => c ≠ '.')
        let fp := (cs.dropWhile (fun c => c ≠ '.')).tail
        some ⟨(intval ip : ℤ) * ipow10 fp.length + (intval fp : ℤ), ipow10 fp.length⟩
    | _ => none

/-- Does the list start with the character `x`? -/
def headIs (x : Char) : List Char → Bool
  | [] => false
  | c :: _ => c == x

/-- Append the pending numeral characters (held reversed) as one token in
front of the tokens of the rest. -/
def flushNum (pend : List Char) (rest : Option (List Tok)) : Option (List Tok) :=
  match pend with
  | [] => rest
  | _ =>
      match numVal pend.reverse, rest with
      | some q, some ts => some (.num q :: ts)
      | _, _ => none

/-- One non-numeric character's token, prefixed to `r`, the tokens of the
rest of the input (`cs`).  Adjacent `--` or `++` are the JavaScript
decrement/increment tokens, a syntax error in every expression this
grammar covers, so they make the scan fail. -/
def tokStep (c : Char) (cs : List Char) (r : Option (List Tok)) :
    Option (List Tok) :=
  if wsChar c then r
  else if c = '(' then r.map (.lparen :: ·)
  else if c = ')' then r.map (.rparen :: ·)
  else if c = '*' then r.map (.star :: ·)
  else if c = '/' then r.map (.slash :: ·)
  else if c = '+' then
    if headIs '+' cs then none else r.map (.plus :: ·)
  else if c = '-' then
    if headIs '-' cs then none else r.map (.minus :: ·)
  else none

/-- Tokenizer loop: `pend` holds the numeral characters scanned so far,
reversed. -/
def tokAux : List Char → List Char → Option (List Tok)
  | pend, [] => flushNum pend (some [])
  | pend, c :: cs =>
      if numChar c then tokAux (c :: pend) cs
      else flushNum pend (tokStep c cs (tokAux [] cs))

/-- Tokenize a character list. -/
def tokenize (cs : List Char) : Option (List Tok) := tokAux [] cs

/-! ## Parser: two-level precedence, recursive descent with fuel -/

mutual

/-- `AdditiveExpression`. -/
def parseAdd : ℕ → List Tok → Option (JSNum × List Tok)
  | 0, _ => none
  | f + 1, ts =>
      match parseMul f ts with
      | none => none
      | some (v, ts₁) => addLoop f v ts₁

/-- Left-associative chain of `+`/`-` continuations. -/
def addLoop : ℕ → JSNum → List Tok → Option (JSNum × List Tok)
  | 0, _, _ => none
  | f + 1, acc, ts =>
      match ts with
      | .plus :: rest =>
          match parseMul f rest with
          | none => none
          | some (v, ts₁) => addLoop f (jadd acc v) ts₁
      | .minus :: rest =>
          match parseMul f rest with
          | none => none
          | some (v, ts₁) => addLoop f (jsub acc v) ts₁
      | _ => some (acc, ts)

/-- `MultiplicativeExpression`. -/
def parseMul : ℕ → List Tok → Option (JSNum × List Tok)
  | 0, _ => none
  | f + 1, ts =>
      match parseUnary f ts with
      | none => none
      | some (v, ts₁) => mulLoop f v ts₁

/-- Left-associative chain of `*`/`/` continuations. -/
def mulLoop : ℕ → JSNum → List Tok → Option (JSNum × List Tok)
  | 0, _, _ => none
  | f + 1, acc, ts =>
      match ts with
      | .star :: rest =>
          match parseUnary f rest with
          | none => none
          | some (v, ts₁) => mulLoop f (jmul acc v) ts₁
      | .slash :: rest =>
          match parseUnary f rest with
          | none => none
          | some (v, ts₁) => mulLoop f (jdiv acc v) ts₁
      | _ => some (acc, ts)

/-- `UnaryExpression`: prefix `+`/`-`. -/
def parseUnary : ℕ → List Tok → Option (JSNum × List Tok)
  | 0, _ => none
  | f + 1, ts =>
      match ts with
      | .plus :: rest => parseUnary f rest
      | .minus :: rest =>
          match parseUnary f rest with
          | none => none
          | some (v, ts₁) => some (jneg v, ts₁)
      | _ => parsePrimary f ts

/-- `PrimaryExpression`: a literal or a parenthesized expression. -/
def parsePrimary : ℕ → List Tok → Option (JSNum × List Tok)
  | 0, _ => none
  | f + 1, ts =>
      match ts with
      | .num q :: rest => some (.val q, rest)
      | .lparen :: rest =>
          match parseAdd f rest with
          | some (v, .rparen :: rest₁) => some (v, rest₁)
          | _ => none
      | _ => none

end

/-! ## Rounding and display -/

/-- `Math.round(f * 1000000000)` — `Math.round x = ⌊x + 1/2⌋`, and for a
fraction `n / d` with `0 < d`,
`⌊n/d * 10^9 + 1/2⌋ = ⌊(2n·10^9 + d) / 2d⌋`, a floor division of
integers. -/
def round9 (f : Frac) : ℤ := Int.fdiv (2 * f.num * 1000000000 + f.den) (2 * f.den)

/-- Strip trailing `'0'` characters. -/
def stripZeros (ds : List Char) : List Char :=
  (ds.reverse.dropWhile (fun c => c = '0')).reverse

/-- Left-pad with `'0'` to 9 characters. -/
def padLeft9 (cs : List Char) : List Char :=
  List.replicate (9 - cs.length) '0' ++ cs

/-- Decimal display string of the rounded value `z / 10^9`: integer part,
then the fractional digits without trailing zeros (`String(number)` for the
calculator's magnitude range). -/
def formatNum (z : ℤ) : String :=
  let m := z.natAbs
  let ip := m / 1000000000
  let fp := m % 1000000000
  let fracDigits := stripZeros (padLeft9 (natStr fp))
  let core := natStr ip ++ (if fracDigits.isEmpty then [] else '.' :: fracDigits)
  String.mk (if z < 0 then '-' :: core else core)

/-! ## The evaluator -/

/-- `EvaluationOutcome`: the evaluator's internal branching — the whitelist
or grammar rejects the string, the computed value is not finite, or a
finite value is produced. -/
inductive Outcome where
  | malformed
  | nonfinite
  | value (q : Frac)
deriving DecidableEq, Repr

/-- The glyph-normalized character list of the input. -/
def cleanChars (expr : String) : List Char := (normalizeGlyphs expr).data

/-- The branches of `evaluateExpression`: glyph normalization, the character
whitelist, then evaluation of the string by the JavaScript engine (modelled
by `tokenize` and the precedence parser), then the finiteness check. -/
def evalOutcome (expr : String) : Outcome :=
  if (cleanChars expr).isEmpty then .malformed
  else if !(cleanChars expr).all allowedChar then .malformed
  else
    match tokenize (cleanChars expr) with
    | none => .malformed
    | some ts =>
        match parseAdd (10 * (ts.length + 1)) ts with
        | some (v, []) =>
            match v with
            | .val q => .value q
            | _ => .nonfinite
        | _ => .malformed

/-- `evaluateExpression`: `"Error"` for malformed input and non-finite
values, otherwise the rounded result rendered as a decimal string. -/
def evaluateExpression (expr : String) : String :=
  match evalOutcome expr with
  | .value q => formatNum (round9 q)
  | _ => "Error"

/-! ## Calculator state and button handling -/

/-- The exact sequence that triggers navigation to the hidden notes vault. -/
def SECRET_CODE : String := "69/67"

/-- `checkSecretCode`: string equality against the fixed literal. -/
def checkSecretCode (expr : String) : Bool := expr == SECRET_CODE

/-- A history entry `{id, expression, result, timestamp}`. -/
structure HistoryItem where
  id : String
  expression : String
  result : String
  timestamp : ℕ
deriving DecidableEq, Repr

/-- The screen's state: the expression buffer, the displayed result, the
in-memory history, the just-calculated flag, the history copy persisted via
`saveHistory`, and whether `navigation.navigate("Notes")` has fired. -/
structure CalcState where
  expression : String
  result : String
  history : List HistoryItem
  justCalculated : Bool
  savedHistory : List HistoryItem
  navigatedToNotes : Bool
deriving DecidableEq, Repr

/-- State at mount with no persisted history. -/
def initState : CalcState :=
  { expression := "0"
    result := ""
    history := []
    justCalculated := false
    savedHistory := []
    navigatedToNotes := false }

/-- `/\d/.test(value)`. -/
def containsDigit (v : String) : Bool := v.data.any Char.isDigit

/-- `/[+\-*\/]/.test(value)`. -/
def containsOp (v : String) : Bool := v.data.any isOpChar

/-- `/[+\-*\/]$/.test(prev)`. -/
def endsWithOp (s : String) : Bool :=
  match s.data.getLast? with
  | some c => isOpChar c
  | none => false

/-- `prev.split(/[+\-*\/]/)`: split at every operator character, keeping
empty segments, exactly as the JavaScript `split`. -/
def splitOnOps : List Char → List (List Char)
  | [] => [[]]
  | c :: cs =>
      if isOpChar c then [] :: splitOnOps cs
      else
        match splitOnOps cs with
        | [] => [[c]]
        | p :: ps => (c :: p) :: ps

/-- `parts[parts.length - 1].includes(".")` for the split above. -/
def lastOperandHasDot (s : String) : Bool :=
  ((splitOnOps s.data).getLastD []).any (fun c => c = '.')

/-- `prev.slice(0, -1)`. -/
def dropLastStr (s : String) : String := String.mk s.data.dropLast

/-- The `setExpression` reducer for digit, operator and decimal-point
input (every branch also clears the just-calculated flag). -/
def applyInput (prev res : String) (jc : Bool) (value : String) : String :=
  if jc && containsDigit value then value
  else if jc && containsOp value then res ++ value
  else if prev == "0" && containsDigit value then value
  else if endsWithOp prev && containsOp value then dropLastStr prev ++ value
  else if value == "." && lastOperandHasDot prev then prev
  else prev ++ value

/-- One button press (`handleButtonPress`), with `Date.now()` passed as
`now`. -/
def handleButtonPress (now : ℕ) (value : String) (s : CalcState) : CalcState :=
  if value == "C" then
    { s with
      expression := "0", result := "", justCalculated := false
      history := [], savedHistory := [] }
  else if value == "DEL" then
    { s with
      expression :=
        if s.expression.data.length ≤ 1 then "0" else dropLastStr s.expression
      justCalculated := false }
  else if value == "=" then
    if checkSecretCode s.expression then
      { s with expression := "0", result := "", navigatedToNotes := true }
    else
      let calcResult := evaluateExpression s.expression
      if calcResult != "Error" then
        let item : HistoryItem :=
          { id := String.mk (natStr now)
            expression := s.expression
            result := calcResult
            timestamp := now }
        let updated := (item :: s.history).take 10
        { s with
          history := updated, savedHistory := updated
          result := calcResult, justCalculated := true }
      else
        { s with result := calcResult, justCalculated := true }
  else
    { s with
      expression := applyInput s.expression s.result s.justCalculated value
      justCalculated := false }

/-- A sequence of presses, each with its own `Date.now()`. -/
def pressSeq (ps : List (ℕ × String)) (s : CalcState) : CalcState :=
  ps.foldl (fun st p => handleButtonPress p.1 p.2 st) s

/-! ## The calculator's buttons -/

/-- The values of the 18 buttons of `BUTTON_LAYOUT`. -/
def keyList : List String :=
  ["C", "DEL", "/", "*", "7", "8", "9", "-", "4", "5", "6", "+", "1", "2", "3", "=", "0", "."]

/-- The operator buttons. -/
def opKeys : List String := ["+", "-", "*", "/"]

/-- The digit buttons. -/
def digitKeys : List String := ["0", "1", "2", "3", "4", "5", "6", "7", "8", "9"]

/-! ## Reference semantics for well-formed expressions (claim C3)

A well-formed expression over digits and the four binary operators is a
first term followed by `+`/`-`-separated further terms, each term a first
natural-number operand followed by `*`/`/`-separated further operands.
Its reference value computes every term first (left to right within the
term) and then combines the terms left to right: multiplication and
division before addition and subtraction, left-associative within each
precedence level. -/

/-- A multiplicative operator. -/
inductive MOp where
  | mul
  | div
deriving DecidableEq, Repr

/-- An additive operator. -/
inductive AOp where
  | add
  | sub
deriving DecidableEq, Repr

/-- One term: a product/quotient chain of natural-number operands. -/
structure Term where
  head : ℕ
  factors : List (MOp × ℕ)
deriving DecidableEq, Repr

/-- A well-formed expression: terms joined by additive operators. -/
structure WFExpr where
  head : Term
  terms : List (AOp × Term)
deriving DecidableEq, Repr

/-- Apply a multiplicative operator. -/
def applyM (a : JSNum) : MOp → Frac → JSNum
  | .mul, n => jmul a (.val n)
  | .div, n => jdiv a (.val n)

/-- Apply an additive operator. -/
def applyA (a : JSNum) : AOp → JSNum → JSNum
  | .add, v => jadd a v
  | .sub, v => jsub a v

/-- Value of one term, multiplications and divisions left to right. -/
def evalTerm (t : Term) : JSNum :=
  t.factors.foldl (fun a p => applyM a p.1 (natFrac p.2)) (.val (natFrac t.head))

/-- Reference value: terms first, then additive operators left to right. -/
def evalWF (e : WFExpr) : JSNum :=
  e.terms.foldl (fun a p => applyA a p.1 (evalTerm p.2)) (evalTerm e.head)

/-- Display string of a computed value: the rounded decimal rendering for a
finite value, `"Error"` otherwise. -/
def jsDisplay : JSNum → String
  | .val q => formatNum (round9 q)
  | _ => "Error"

/-- Character of a multiplicative operator. -/
def mopCh : MOp → Char
  | .mul => '*'
  | .div => '/'

/-- Character of an additive operator. -/
def aopCh : AOp → Char
  | .add => '+'
  | .sub => '-'

/-- Token of a multiplicative operator. -/
def mopTok : MOp → Tok
  | .mul => .star
  | .div => .slash

/-- Token of an additive operator. -/
def aopTok : AOp → Tok
  | .add => .plus
  | .sub => .minus

/-- Characters of a term's factor tail. -/
def termChsTail : List (MOp × ℕ) → List Char
  | [] => []
  | p :: fs => mopCh p.1 :: (natStr p.2 ++ termChsTail fs)

/-- Characters of a term. -/
def termChs (t : Term) : List Char := natStr t.head ++ termChsTail t.factors

/-- Characters of the additive tail. -/
def exprChsTail : List (AOp × Term) → List Char
  | [] => []
  | p :: rest => aopCh p.1 :: (termChs p.2 ++ exprChsTail rest)

/-- Characters of a well-formed expression. -/
def exprChs (e : WFExpr) : List Char := termChs e.head ++ exprChsTail e.terms

/-- The expression string the user would have typed. -/
def renderExpr (e : WFExpr) : String := String.mk (exprChs e)

/-- Tokens of a term's factor tail. -/
def termToksTail : List (MOp × ℕ) → List Tok
  | [] => []
  | p :: fs => mopTok p.1 :: Tok.num (natFrac p.2) :: termToksTail fs

/-- Tokens of a term. -/
def termToks (t : Term) : List Tok := .num (natFrac t.head) :: termToksTail t.factors

/-- Tokens of the additive tail. -/
def exprToksTail : List (AOp × Term) → List Tok
  | [] => []
  | p :: rest => aopTok p.1 :: (termToks p.2 ++ exprToksTail rest)

/-- Tokens of a well-formed expression. -/
def exprToks (e : WFExpr) : List Tok := termToks e.head ++ exprToksTail e.terms

/-- `evalTerm` from an arbitrary accumulator. -/
def foldFactors (acc : JSNum) (fs : List (MOp × ℕ)) : JSNum :=
  fs.foldl (fun a p => applyM a p.1 (natFrac p.2)) acc

/-- `evalWF` from an arbitrary accumulator. -/
def foldTerms (acc : JSNum) (terms : List (AOp × Term)) : JSNum :=
  terms.foldl (fun a p => applyA a p.1 (evalTerm p.2)) acc

/-- Fuel needed by the parser for the additive tail. -/
def termsWeight : List (AOp × Term) → ℕ
  | [] => 1
  | p :: rest => 2 * p.2.factors.length + 6 + termsWeight rest

/-- A token list on which a multiplicative chain stops: empty or starting
with an additive operator. -/
def addStartTok : List Tok → Prop := fun ts =>
  ts = [] ∨ ∃ rest, ts = Tok.plus :: rest ∨ ts = Tok.minus :: rest

/-! ## The spec's buffer invariant (claim C8) -/

/-- A buffer character: digit, decimal point, or operator. -/
def bufChar (c : Char) : Bool := c.isDigit || c = '.' || isOpChar c

/-- No two consecutive operator characters. -/
def noDoubleOp : List Char → Bool
  | c₁ :: c₂ :: rest => !(isOpChar c₁ && isOpChar c₂) && noDoubleOp (c₂ :: rest)
  | _ => true

/-- The spec's `ExpressionBuffer` invariant on a character list: non-empty,
alphabet `{0-9, '.', '+', '-', '*', '/'}`, no leading operator, no two
consecutive operators. -/
def goodChars : List Char → Bool
  | [] => false
  | c :: cs => !isOpChar c && (c :: cs).all bufChar && noDoubleOp (c :: cs)

/-- The spec's `ExpressionBuffer` invariant on a buffer string. -/
def goodBuf (s : String) : Bool := goodChars s.data

/-- A press sequence of calculator buttons in which no operator key is
pressed immediately after an `=` press (`b` records whether the previous
press was `=`). -/
def okKeys : Bool → List (ℕ × String) → Bool
  | _, [] => true
  | b, p :: rest =>
      keyList.contains p.2 && !(b && opKeys.contains p.2) &&
        okKeys (p.2 == "=") rest

/-! # Theorems -/

/-! ## Exactness of the fraction arithmetic

The cross-multiplication operations on `Frac` denote exact rational
arithmetic, and `round9` is `Math.round (q * 10^9)`, i.e.
`⌊q * 10^9 + 1/2⌋`, on the denoted rational. -/

/-- A natural-number fraction denotes that number. -/
theorem toRat_natFrac (n : ℕ) : (natFrac n).toRat = n := by
  simp [natFrac, Frac.toRat]

/-- `fadd` denotes rational addition. -/
theorem toRat_fadd (a b : Frac) (ha : a.den ≠ 0) (hb : b.den ≠ 0) :
    (fadd a b).toRat = a.toRat + b.toRat := by
  have ha' : (a.den : ℚ) ≠ 0 := Int.cast_ne_zero.mpr ha
  have hb' : (b.den : ℚ) ≠ 0 := Int.cast_ne_zero.mpr hb
  unfold fadd Frac.toRat
  push_cast
  field_simp

/-- `fneg` denotes rational negation. -/
theorem toRat_fneg (a : Frac) : (fneg a).toRat = -a.toRat := by
  unfold fneg Frac.toRat
  push_cast
  ring

/-- `fmul` denotes rational multiplication. -/
theorem toRat_fmul (a b : Frac) (ha : a.den ≠ 0) (hb : b.den ≠ 0) :
    (fmul a b).toRat = a.toRat * b.toRat := by
  have ha' : (a.den : ℚ) ≠ 0 := Int.cast_ne_zero.mpr ha
  have hb' : (b.den : ℚ) ≠ 0 := Int.cast_ne_zero.mpr hb
  unfold fmul Frac.toRat
  push_cast
  field_simp

/-- `fdivF` denotes rational division. -/
theorem toRat_fdivF (a b : Frac) (ha : a.den ≠ 0) (hb : b.den ≠ 0)
    (hn : b.num ≠ 0) : (fdivF a b).toRat = a.toRat / b.toRat := by
  have ha' : (a.den : ℚ) ≠ 0 := Int.cast_ne_zero.mpr ha
  have hb' : (b.den : ℚ) ≠ 0 := Int.cast_ne_zero.mpr hb
  have hn' : (b.num : ℚ) ≠ 0 := Int.cast_ne_zero.mpr hn
  unfold fdivF Frac.toRat
  split_ifs with h
  · push_cast
    field_simp
  · push_cast
    field_simp

/-- `round9` is `⌊q * 10^9 + 1/2⌋` on the denoted rational, which is
`Math.round (q * 1000000000)`. -/
theorem round9_eq_floor (f : Frac) (h : 0 < f.den) :
    round9 f = ⌊f.toRat * 1000000000 + 1 / 2⌋ := by
  have hd : (f.den : ℚ) ≠ 0 := Int.cast_ne_zero.mpr (by omega)
  have hpos : (0 : ℤ) ≤ 2 * f.den := by omega
  have hkey : f.toRat * 1000000000 + 1 / 2
      = ((2 * f.num * 1000000000 + f.den : ℤ) : ℚ)
        / (((2 * f.den).toNat : ℕ) : ℚ) := by
    have hcast : (((2 * f.den).toNat : ℕ) : ℚ) = ((2 * f.den : ℤ) : ℚ) := by
      rw [← Int.cast_natCast, Int.toNat_of_nonneg hpos]
    unfold Frac.toRat
    rw [hcast]
    push_cast
    field_simp
    ring
  rw [hkey, Rat.floor_intCast_div_natCast]
  unfold round9
  rw [Int.toNat_of_nonneg hpos]
  exact Int.fdiv_eq_ediv _ hpos

/-! ## Step characterizations of `handleButtonPress` -/

/-- A digit, operator or `.` press goes through the input reducer. -/
theorem press_input (now : ℕ) (v : String) (s : CalcState)
    (h1 : v ≠ "C") (h2 : v ≠ "DEL") (h3 : v ≠ "=") :
    handleButtonPress now v s =
      { s with
        expression := applyInput s.expression s.result s.justCalculated v
        justCalculated := false } := by
  have c1 : (v == "C") = false := beq_eq_false_iff_ne.mpr h1
  have c2 : (v == "DEL") = false := beq_eq_false_iff_ne.mpr h2
  have c3 : (v == "=") = false := beq_eq_false_iff_ne.mpr h3
  simp [handleButtonPress, c1, c2, c3]

/-- `=` on the secret code: reset, clear, navigate; nothing else changes. -/
theorem press_secret (now : ℕ) (s : CalcState) (h : s.expression = "69/67") :
    handleButtonPress now "=" s =
      { s with expression := "0", result := "", navigatedToNotes := true } := by
  have hs : checkSecretCode s.expression = true := by
    rw [checkSecretCode, h]; rfl
  simp [handleButtonPress, hs]

/-- The result of evaluating the secret code, were it evaluated. -/
theorem eval_secret_not_error : evaluateExpression "69/67" = "1.029850746" := by decide

/-- `=` on an expression that evaluates to `"Error"`: only the displayed
result and the just-calculated flag change. -/
theorem press_equals_error (now : ℕ) (s : CalcState)
    (h : evaluateExpression s.expression = "Error") :
    handleButtonPress now "=" s =
      { s with result := "Error", justCalculated := true } := by
  have hsec : checkSecretCode s.expression = false := by
    by_cases he : s.expression = "69/67"
    · rw [he, eval_secret_not_error] at h
      exact absurd h (by decide)
    · rw [checkSecretCode]
      exact beq_eq_false_iff_ne.mpr he
  simp [handleButtonPress, hsec, h]

/-- `=` on a non-secret expression that evaluates successfully: the new
entry is prepended (truncating to 10), saved, and displayed; the buffer is
unchanged. -/
theorem press_equals_success (now : ℕ) (s : CalcState)
    (hsec : s.expression ≠ "69/67")
    (h : evaluateExpression s.expression ≠ "Error") :
    handleButtonPress now "=" s =
      { s with
        history :=
          ({ id := String.mk (natStr now), expression := s.expression,
             result := evaluateExpression s.expression, timestamp := now }
            :: s.history).take 10
        savedHistory :=
          ({ id := String.mk (natStr now), expression := s.expression,
             result := evaluateExpression s.expression, timestamp := now }
            :: s.history).take 10
        result := evaluateExpression s.expression
        justCalculated := true } := by
  have hs : checkSecretCode s.expression = false := by
    rw [checkSecretCode]
    exact beq_eq_false_iff_ne.mpr hsec
  have h2 : (evaluateExpression s.expression != "Error") = true := by
    simp [bne_iff_ne, h]
  simp [handleButtonPress, hs, h2]

/-! ## Input reducer lemmas -/

/-- A `.` press: no-op when the operand since the last operator already has
a decimal point, otherwise append. -/
theorem applyInput_dot (prev res : String) (jc : Bool) :
    applyInput prev res jc "." =
      if lastOperandHasDot prev then prev else prev ++ "." := by
  have h1 : containsDigit "." = false := by decide
  have h2 : containsOp "." = false := by decide
  simp [applyInput, h1, h2]

/-- A digit press right after a calculation replaces the buffer. -/
theorem applyInput_digit_jc (prev res v : String)
    (h : containsDigit v = true) : applyInput prev res true v = v := by
  simp [applyInput, h]

/-- An operator press right after a calculation chains off the result. -/
theorem applyInput_op_jc (prev res v : String)
    (hd : containsDigit v = false) (ho : containsOp v = true) :
    applyInput prev res true v = res ++ v := by
  simp [applyInput, hd, ho]

/-! ## Claim C1 -/

/-- C1: the secret-trigger check is exact string equality with the literal
`"69/67"` — true iff the whole buffer is that literal; the near-miss
`"69/68"` and the proper prefix `"696"` give `false`, and pressing `=` on
the near-miss follows the normal evaluation path (no navigation, the
quotient is displayed). -/
theorem C1_secret_exact_match :
    (∀ b : String, checkSecretCode b = true ↔ b = "69/67") ∧
    checkSecretCode "69/68" = false ∧
    checkSecretCode "696" = false ∧
    (handleButtonPress 1 "=" { initState with expression := "69/68" }).navigatedToNotes
      = false ∧
    (handleButtonPress 1 "=" { initState with expression := "69/68" }).result
      = "1.014705882" := by
  refine ⟨fun b => ?_, by decide, by decide, by decide, by decide⟩
  rw [checkSecretCode]
  exact beq_iff_eq

/-! ## Claim C2 -/

/-- C2: pressing `=` while the buffer is exactly `"69/67"` resets the
buffer to `"0"`, clears the displayed result and fires the vault
navigation; the expression is never evaluated, the history ledger and its
persisted copy are completely unchanged, and no error is shown. -/
theorem C2_secret_equals_effect (s : CalcState) (now : ℕ)
    (h : s.expression = "69/67") :
    handleButtonPress now "=" s =
      { s with expression := "0", result := "", navigatedToNotes := true } :=
  press_secret now s h

/-- Witness for C2 at a concrete state. -/
theorem C2_witness :
    handleButtonPress 3 "=" { initState with expression := "69/67" } =
      { initState with expression := "0", result := "", navigatedToNotes := true } :=
  C2_secret_equals_effect { initState with expression := "69/67" } 3 rfl

/-! ## Claim C5 -/

/-- C5: on an `=` press whose evaluation returns `"Error"`, the expression
buffer is left unchanged and no history entry is added (neither in memory
nor persisted): only the displayed result and the just-calculated flag
change. -/
theorem C5_error_keeps_state (s : CalcState) (now : ℕ)
    (h : evaluateExpression s.expression = "Error") :
    handleButtonPress now "=" s =
      { s with result := "Error", justCalculated := true } :=
  press_equals_error now s h

/-- Witness for C5: dividing by zero. -/
theorem C5_witness :
    handleButtonPress 7 "=" { initState with expression := "5/0" } =
      { initState with
        expression := "5/0"
        result := "Error"
        justCalculated := true } :=
  C5_error_keeps_state { initState with expression := "5/0" } 7 (by decide)

/-! ## Claim C7 -/

/-- C7: pressing `C` resets the buffer to `"0"`, clears the displayed
result and the just-calculated flag, and empties the history ledger both in
memory and in the persisted copy, regardless of the prior state. -/
theorem C7_clear (s : CalcState) (now : ℕ) :
    handleButtonPress now "C" s =
      { s with expression := "0", result := "", justCalculated := false,
               history := [], savedHistory := [] } := rfl

/-! ## Digit characters and numerals -/

/-- `digitCh` always lands in the ten digit characters. -/
theorem digitCh_mem (d : ℕ) :
    digitCh d ∈ ['0', '1', '2', '3', '4', '5', '6', '7', '8', '9'] := by
  rcases d with _ | _ | _ | _ | _ | _ | _ | _ | _ | d <;> simp [digitCh]

/-- A digit character is none of the tokenizer's special characters. -/
theorem digit_char_not_special (c : Char)
    (h : c ∈ ['0', '1', '2', '3', '4', '5', '6', '7', '8', '9']) :
    wsChar c = false ∧ c ≠ '(' ∧ c ≠ ')' ∧
    c ≠ '*' ∧ c ≠ '/' ∧ c ≠ '+' ∧ c ≠ '-' ∧
    c ≠ 'E' ∧ c ≠ '×' ∧ c ≠ '÷' ∧ c.isDigit = true := by
  fin_cases h <;> decide

/-- Digit characters are none of the tokenizer's special characters. -/
theorem digitCh_not_special (d : ℕ) :
    wsChar (digitCh d) = false ∧ digitCh d ≠ '(' ∧ digitCh d ≠ ')' ∧
    digitCh d ≠ '*' ∧ digitCh d ≠ '/' ∧ digitCh d ≠ '+' ∧ digitCh d ≠ '-' ∧
    digitCh d ≠ 'E' ∧ digitCh d ≠ '×' ∧ digitCh d ≠ '÷' ∧
    (digitCh d).isDigit = true :=
  digit_char_not_special (digitCh d) (digitCh_mem d)

/-- The digit list of a natural number is never empty. -/
theorem natList_ne_nil (n : ℕ) : natList n ≠ [] := by
  by_cases h : n = 0
  · simp [natList, h]
  · simp only [natList, if_neg h, ne_eq, List.reverse_eq_nil_iff]
    cases n with
    | zero => exact absurd rfl h
    | succ m => simp [toDigitsRev]

/-- The numeral of a natural number starts with a digit character. -/
theorem natStr_exists_cons (n : ℕ) :
    ∃ d L, natStr n = digitCh d :: List.map digitCh L := by
  unfold natStr
  rcases h : natList n with _ | ⟨d, L⟩
  · exact absurd h (natList_ne_nil n)
  · exact ⟨d, L, by simp⟩

/-- `formatNum` renders a sign and digits, never the string `"Error"`. -/
theorem formatNum_ne_Error (z : ℤ) : formatNum z ≠ "Error" := by
  intro h
  obtain ⟨d, L, hd⟩ := natStr_exists_cons (z.natAbs / 1000000000)
  have h2 := congrArg String.data h
  simp only [formatNum, hd] at h2
  obtain ⟨-, -, -, -, -, -, -, hE, -⟩ := digitCh_not_special d
  split at h2
  · simp at h2
  · rw [List.cons_append, List.cons.injEq] at h2
    exact absurd h2.1 hE

/-! ## Claim C4 -/

/-- C4: `evaluateExpression` returns the literal `"Error"` exactly when the
glyph-normalized input fails the character whitelist or does not parse
(`Malformed`), or the computed value is not finite (`NonFinite`); both
error kinds produce the same string, `"5/0"` is a `NonFinite` error, and
`"5a"` a `Malformed` one. -/
theorem C4_error_taxonomy :
    (∀ s : String,
        evaluateExpression s = "Error" ↔
          evalOutcome s = .malformed ∨ evalOutcome s = .nonfinite) ∧
    evaluateExpression "5/0" = "Error" ∧ evalOutcome "5/0" = .nonfinite ∧
    evaluateExpression "5a" = "Error" ∧ evalOutcome "5a" = .malformed := by
  refine ⟨fun s => ?_, by decide, by decide, by decide, by decide⟩
  unfold evaluateExpression
  cases h : evalOutcome s with
  | malformed => simp
  | nonfinite => simp
  | value q => simp [formatNum_ne_Error]

/-! ## Claim C10 -/

/-- After a non-secret `=` press the just-calculated flag is set. -/
theorem press_equals_jc (now : ℕ) (s : CalcState)
    (hsec : s.expression ≠ "69/67") :
    (handleButtonPress now "=" s).justCalculated = true := by
  by_cases h : evaluateExpression s.expression = "Error"
  · rw [press_equals_error now s h]
  · rw [press_equals_success now s hsec h]

/-- After a non-secret `=` press the displayed result is the evaluation. -/
theorem press_equals_result (now : ℕ) (s : CalcState)
    (hsec : s.expression ≠ "69/67") :
    (handleButtonPress now "=" s).result = evaluateExpression s.expression := by
  by_cases h : evaluateExpression s.expression = "Error"
  · rw [press_equals_error now s h, h]
  · rw [press_equals_success now s hsec h]

/-- After a non-secret `=` press the buffer is unchanged. -/
theorem press_equals_expr (now : ℕ) (s : CalcState)
    (hsec : s.expression ≠ "69/67") :
    (handleButtonPress now "=" s).expression = s.expression := by
  by_cases h : evaluateExpression s.expression = "Error"
  · rw [press_equals_error now s h]
  · rw [press_equals_success now s hsec h]

/-- The buffer after an input press. -/
theorem press_input_expr (now : ℕ) (v : String) (s : CalcState)
    (h1 : v ≠ "C") (h2 : v ≠ "DEL") (h3 : v ≠ "=") :
    (handleButtonPress now v s).expression =
      applyInput s.expression s.result s.justCalculated v := by
  rw [press_input now v s h1 h2 h3]

/-- C10: every `=` press that does not trigger the secret code — also one
whose evaluation fails — sets the just-calculated flag, so the next digit
press replaces the whole buffer with that digit and the next operator press
sets the buffer to the displayed result followed by that operator; after a
failed evaluation that buffer is `"Error"` plus the operator. -/
theorem C10_post_equals :
    (∀ (s : CalcState) (now : ℕ), s.expression ≠ "69/67" →
        (handleButtonPress now "=" s).justCalculated = true) ∧
    (∀ (s : CalcState) (now now₂ : ℕ) (d : String), d ∈ digitKeys →
        s.expression ≠ "69/67" →
        (handleButtonPress now₂ d (handleButtonPress now "=" s)).expression = d) ∧
    (∀ (s : CalcState) (now now₂ : ℕ) (op : String), op ∈ opKeys →
        s.expression ≠ "69/67" →
        (handleButtonPress now₂ op (handleButtonPress now "=" s)).expression =
          (handleButtonPress now "=" s).result ++ op) ∧
    (∀ (s : CalcState) (now now₂ : ℕ) (op : String), op ∈ opKeys →
        evaluateExpression s.expression = "Error" →
        (handleButtonPress now₂ op (handleButtonPress now "=" s)).expression =
          "Error" ++ op) := by
  have secNe : ∀ s : CalcState, evaluateExpression s.expression = "Error" →
      s.expression ≠ "69/67" := by
    intro s h he
    rw [he, eval_secret_not_error] at h
    exact absurd h (by decide)
  refine ⟨fun s now h => press_equals_jc now s h, ?_, ?_, ?_⟩
  · intro s now now₂ d hd hsec
    have hjc := press_equals_jc now s hsec
    fin_cases hd <;>
      rw [press_input_expr now₂ _ _ (by decide) (by decide) (by decide), hjc,
        applyInput_digit_jc _ _ _ (by decide)]
  · intro s now now₂ op hop hsec
    have hjc := press_equals_jc now s hsec
    fin_cases hop <;>
      rw [press_input_expr now₂ _ _ (by decide) (by decide) (by decide), hjc,
        applyInput_op_jc _ _ _ (by decide) (by decide)]
  · intro s now now₂ op hop h
    have hsec := secNe s h
    have hjc := press_equals_jc now s hsec
    have hres := press_equals_result now s hsec
    fin_cases hop <;>
      rw [press_input_expr now₂ _ _ (by decide) (by decide) (by decide), hjc,
        applyInput_op_jc _ _ _ (by decide) (by decide), hres, h]

/-! ## Claim C6 -/

/-- One step never grows the history past 10 entries. -/
theorem press_history_len (now : ℕ) (v : String) (s : CalcState)
    (h : s.history.length ≤ 10) :
    (handleButtonPress now v s).history.length ≤ 10 := by
  by_cases h1 : (v == "C") = true
  · simp [handleButtonPress, h1]
  · by_cases h2 : (v == "DEL") = true
    · simp [handleButtonPress, h1, h2, h]
    · by_cases h3 : (v == "=") = true
      · by_cases h4 : checkSecretCode s.expression = true
        · simp [handleButtonPress, h1, h2, h3, h4, h]
        · by_cases h5 : evaluateExpression s.expression = "Error"
          · simp [handleButtonPress, h1, h2, h3, h4, h5, h]
          · simp only [handleButtonPress, h1, h2, h3, h4, h5, Bool.false_eq_true,
              if_false, if_true, bne_iff_ne, ne_eq, not_false_eq_true, if_pos]
            simp [List.length_take]
      · simp [handleButtonPress, h1, h2, h3, h]

/-- C6: the history ledger never exceeds 10 entries; a successful
evaluation prepends exactly one entry (evicting past the cap), and a
concrete run of 11 successful evaluations keeps exactly the 10 most recent
entries, newest first. -/
theorem C6_history_ledger :
    (∀ (s : CalcState) (now : ℕ) (v : String), s.history.length ≤ 10 →
        (handleButtonPress now v s).history.length ≤ 10) ∧
    (∀ (s : CalcState) (now : ℕ), s.expression ≠ "69/67" →
        evaluateExpression s.expression ≠ "Error" →
        (handleButtonPress now "=" s).history =
          ({ id := String.mk (natStr now), expression := s.expression,
             result := evaluateExpression s.expression, timestamp := now }
            :: s.history).take 10) ∧
    (pressSeq [(0, "5"), (1, "="), (2, "="), (3, "="), (4, "="), (5, "="),
        (6, "="), (7, "="), (8, "="), (9, "="), (10, "="), (11, "=")]
        initState).history =
      [⟨"11", "5", "5", 11⟩, ⟨"10", "5", "5", 10⟩, ⟨"9", "5", "5", 9⟩,
       ⟨"8", "5", "5", 8⟩, ⟨"7", "5", "5", 7⟩, ⟨"6", "5", "5", 6⟩,
       ⟨"5", "5", "5", 5⟩, ⟨"4", "5", "5", 4⟩, ⟨"3", "5", "5", 3⟩,
       ⟨"2", "5", "5", 2⟩] := by
  refine ⟨fun s now v h => press_history_len now v s h, fun s now h1 h2 => ?_,
    by decide⟩
  rw [press_equals_success now s h1 h2]

/-! ## Claim C9 -/

/-- C9: pressing `.` is a no-op exactly when the operand since the last
operator already contains a decimal point, and otherwise appends `.`; in
particular buffer `"3.5"` stays `"3.5"`. -/
theorem C9_dot :
    (∀ (s : CalcState) (now : ℕ),
        (handleButtonPress now "." s).expression =
          if lastOperandHasDot s.expression then s.expression
          else s.expression ++ ".") ∧
    (handleButtonPress 0 "." { initState with expression := "3.5" }).expression
      = "3.5" := by
  constructor
  · intro s now
    rw [press_input now "." s (by decide) (by decide) (by decide)]
    exact applyInput_dot s.expression s.result s.justCalculated
  · decide

/-! ## Claim C3: numeral round trip -/

/-- Reading back one digit character. -/
theorem digitVal_digitCh (d : ℕ) (h : d < 10) : digitVal (digitCh d) = d := by
  interval_cases d <;> decide

/-- The fuelled digit extraction agrees with `Nat.digits`. -/
theorem toDigitsRev_eq_digits (f n : ℕ) (h : n ≤ f) :
    toDigitsRev f n = Nat.digits 10 n := by
  induction f generalizing n with
  | zero =>
    interval_cases n
    simp [toDigitsRev]
  | succ f ih =>
    unfold toDigitsRev
    by_cases hn : n = 0
    · simp [hn]
    · rw [if_neg hn, ih (n / 10) (by
        have := Nat.div_lt_self (Nat.pos_of_ne_zero hn) (by norm_num : 1 < 10)
        omega),
        Nat.digits_def' (by norm_num : 1 < 10) (Nat.pos_of_ne_zero hn)]

/-- Horner evaluation of a digit list read back through characters. -/
theorem foldr_digits_eq_ofDigits (L : List ℕ) (h : ∀ d ∈ L, d < 10) :
    L.foldr (fun d acc => 10 * acc + digitVal (digitCh d)) 0 = Nat.ofDigits 10 L := by
  induction L with
  | nil => simp [Nat.ofDigits]
  | cons d L ih =>
    rw [List.foldr_cons, ih (fun x hx => h x (List.mem_cons_of_mem _ hx)),
      digitVal_digitCh d (h d (List.mem_cons_self _ _)), Nat.ofDigits_cons]
    ring

/-- Reading back a reversed digit list rendered through `digitCh`. -/
theorem intval_digits (L : List ℕ) (h : ∀ d ∈ L, d < 10) :
    intval (L.reverse.map digitCh) = Nat.ofDigits 10 L := by
  induction L with
  | nil => rfl
  | cons d L ih =>
    rw [List.reverse_cons, List.map_append]
    simp only [List.map_cons, List.map_nil]
    have step : intval (List.map digitCh L.reverse ++ [digitCh d])
        = 10 * intval (List.map digitCh L.reverse) + digitVal (digitCh d) := by
      simp [intval, List.foldl_append]
    rw [step, ih (fun x hx => h x (List.mem_cons_of_mem _ hx)),
      digitVal_digitCh d (h d (List.mem_cons_self _ _)), Nat.ofDigits_cons]
    ring

/-- The rendered numeral of `n` reads back as `n`. -/
theorem intval_natStr (n : ℕ) : intval (natStr n) = n := by
  by_cases h : n = 0
  · subst h; decide
  · unfold natStr natList
    rw [if_neg h, toDigitsRev_eq_digits n n le_rfl,
      intval_digits (Nat.digits 10 n)
        (fun d hd => Nat.digits_lt_base (by norm_num) hd)]
    exact Nat.ofDigits_digits 10 n

/-! ## Claim C3: character classes of rendered numerals -/

/-- Every character of a numeral is one of the digit characters. -/
theorem natStr_mem (n : ℕ) (c : Char) (hc : c ∈ natStr n) :
    c ∈ ['0', '1', '2', '3', '4', '5', '6', '7', '8', '9'] := by
  obtain ⟨d, -, rfl⟩ := List.mem_map.mp hc
  exact digitCh_mem d

/-- A numeral is never empty. -/
theorem natStr_ne_nil (n : ℕ) : natStr n ≠ [] := by
  unfold natStr
  simp [natList_ne_nil n]

/-- Numeral characters satisfy `numChar`. -/
theorem natStr_numChar (n : ℕ) : ∀ c ∈ natStr n, numChar c = true := by
  intro c hc
  have h := digit_char_not_special c (natStr_mem n c hc)
  simp [numChar, h.2.2.2.2.2.2.2.2.2.2]

/-! ## Claim C3: tokenizing a rendered expression -/

/-- The tokenizer's two defining equations, stated for rewriting. -/
theorem tokAux_nil (pend : List Char) :
    tokAux pend [] = flushNum pend (some []) := rfl

/-- The tokenizer's step equation. -/
theorem tokAux_cons (pend : List Char) (c : Char) (cs : List Char) :
    tokAux pend (c :: cs) =
      if numChar c then tokAux (c :: pend) cs
      else flushNum pend (tokStep c cs (tokAux [] cs)) := rfl

/-- Scanning a run of numeric characters accumulates them. -/
theorem tokAux_digits (ds : List Char) (pend rest : List Char)
    (h : ∀ c ∈ ds, numChar c = true) :
    tokAux pend (ds ++ rest) = tokAux (ds.reverse ++ pend) rest := by
  induction ds generalizing pend with
  | nil => simp
  | cons c ds ih =>
    rw [List.cons_append, tokAux_cons,
      if_pos (h c (List.mem_cons_self _ _)),
      ih (c :: pend) (fun x hx => h x (List.mem_cons_of_mem _ hx))]
    simp

/-- `flushNum` on no pending characters. -/
theorem flushNum_nil (r : Option (List Tok)) : flushNum [] r = r := rfl

/-- `flushNum` on pending characters. -/
theorem flushNum_cons (c : Char) (cs : List Char) (r : Option (List Tok)) :
    flushNum (c :: cs) r =
      match numVal (c :: cs).reverse, r with
      | some q, some ts => some (.num q :: ts)
      | _, _ => none := rfl

/-- At the end or at a non-numeric character the pending numeral is
flushed. -/
theorem tokAux_flush (pend : List Char) (rest : List Char)
    (h : rest = [] ∨ ∃ c cs, rest = c :: cs ∧ numChar c = false) :
    tokAux pend rest = flushNum pend (tokAux [] rest) := by
  rcases h with rfl | ⟨c, cs, rfl, hc⟩
  · rfl
  · rw [tokAux_cons, tokAux_cons, if_neg (by simp [hc]),
      if_neg (by simp [hc]), flushNum_nil]

/-- A rendered numeral becomes one number token. -/
theorem numVal_natStr (n : ℕ) : numVal (natStr n) = some (natFrac n) := by
  have hdot : (natStr n).count '.' = 0 := by
    rw [List.count_eq_zero]
    intro hc
    have h := digit_char_not_special '.' (natStr_mem n '.' hc)
    simp at h
  have hdig : (natStr n).any Char.isDigit = true := by
    rcases hns : natStr n with _ | ⟨c, cs⟩
    · exact absurd hns (natStr_ne_nil n)
    · have h := digit_char_not_special c
        (natStr_mem n c (hns ▸ List.mem_cons_self c cs))
      simp [h.2.2.2.2.2.2.2.2.2.2]
  unfold numVal
  rw [hdig, hdot]
  simp [intval_natStr]

/-- Tokenizing a numeral followed by a non-numeric remainder. -/
theorem tokAux_natStr (n : ℕ) (rest : List Char)
    (h : rest = [] ∨ ∃ c cs, rest = c :: cs ∧ numChar c = false) :
    tokAux [] (natStr n ++ rest) =
      (tokAux [] rest).map (fun ts => Tok.num (natFrac n) :: ts) := by
  rw [tokAux_digits (natStr n) [] rest (natStr_numChar n), List.append_nil,
    tokAux_flush _ rest h]
  obtain ⟨c, cs, hcs⟩ : ∃ c cs, (natStr n).reverse = c :: cs := by
    rcases hrev : (natStr n).reverse with _ | ⟨c, cs⟩
    · exact absurd (by simpa using hrev) (natStr_ne_nil n)
    · exact ⟨c, cs, rfl⟩
  have hrr : (c :: cs).reverse = natStr n := by
    rw [← hcs, List.reverse_reverse]
  rw [hcs, flushNum_cons, hrr, numVal_natStr]
  cases tokAux [] rest <;> rfl

/-- Tokenizer step lemmas at the four operator characters. -/
theorem tok_star (cs : List Char) :
    tokAux [] ('*' :: cs) = (tokAux [] cs).map (Tok.star :: ·) := rfl

/-- Tokenizer step at `/`. -/
theorem tok_slash (cs : List Char) :
    tokAux [] ('/' :: cs) = (tokAux [] cs).map (Tok.slash :: ·) := rfl

/-- Tokenizer step at `+` (rejecting an adjacent second `+`). -/
theorem tok_plus (cs : List Char) :
    tokAux [] ('+' :: cs) =
      if headIs '+' cs then none else (tokAux [] cs).map (Tok.plus :: ·) := rfl

/-- Tokenizer step at `-` (rejecting an adjacent second `-`). -/
theorem tok_minus (cs : List Char) :
    tokAux [] ('-' :: cs) =
      if headIs '-' cs then none else (tokAux [] cs).map (Tok.minus :: ·) := rfl

/-- The factor tail of a term starts with an operator character (or is the
given remainder). -/
theorem termChsTail_append_head (fs : List (MOp × ℕ)) (rest : List Char)
    (h : rest = [] ∨ ∃ c cs, rest = c :: cs ∧ numChar c = false) :
    termChsTail fs ++ rest = [] ∨
      ∃ c cs, termChsTail fs ++ rest = c :: cs ∧ numChar c = false := by
  cases fs with
  | nil =>
    simp only [termChsTail, List.nil_append]
    exact h
  | cons p fs =>
    right
    cases hp : p.1 with
    | mul =>
      exact ⟨'*', natStr p.2 ++ (termChsTail fs ++ rest),
        by simp [termChsTail, hp, mopCh], by decide⟩
    | div =>
      exact ⟨'/', natStr p.2 ++ (termChsTail fs ++ rest),
        by simp [termChsTail, hp, mopCh], by decide⟩

/-- The additive tail starts with an operator character or is empty. -/
theorem exprChsTail_head (terms : List (AOp × Term)) :
    exprChsTail terms = [] ∨
      ∃ c cs, exprChsTail terms = c :: cs ∧ numChar c = false := by
  cases terms with
  | nil => exact Or.inl rfl
  | cons p rest =>
    right
    cases hp : p.1 with
    | add =>
      exact ⟨'+', termChs p.2 ++ exprChsTail rest,
        by simp [exprChsTail, hp, aopCh], by decide⟩
    | sub =>
      exact ⟨'-', termChs p.2 ++ exprChsTail rest,
        by simp [exprChsTail, hp, aopCh], by decide⟩

/-- A term's character rendering never starts with the character `x` when
no digit character is `x`. -/
theorem headIs_termChs (x : Char) (hx : ∀ d : ℕ, digitCh d ≠ x) (t : Term)
    (rest : List Char) : headIs x (termChs t ++ rest) = false := by
  obtain ⟨d, L, hd⟩ := natStr_exists_cons t.head
  unfold termChs
  rw [hd]
  simp [headIs, hx d]

/-- Tokenizing a factor tail. -/
theorem tokenize_termTail (fs : List (MOp × ℕ)) (rest : List Char)
    (h : rest = [] ∨ ∃ c cs, rest = c :: cs ∧ numChar c = false) :
    tokAux [] (termChsTail fs ++ rest) =
      (tokAux [] rest).map (fun ts => termToksTail fs ++ ts) := by
  induction fs with
  | nil =>
    simp only [termChsTail, termToksTail, List.nil_append]
    cases tokAux [] rest <;> rfl
  | cons p fs ih =>
    cases hp : p.1 with
    | mul =>
      simp only [termChsTail, hp, mopCh, List.cons_append]
      rw [tok_star, List.append_assoc,
        tokAux_natStr p.2 _ (termChsTail_append_head fs rest h), ih]
      cases tokAux [] rest <;> simp [termToksTail, hp, mopTok]
    | div =>
      simp only [termChsTail, hp, mopCh, List.cons_append]
      rw [tok_slash, List.append_assoc,
        tokAux_natStr p.2 _ (termChsTail_append_head fs rest h), ih]
      cases tokAux [] rest <;> simp [termToksTail, hp, mopTok]

/-- Tokenizing a term. -/
theorem tokenize_termChs (t : Term) (rest : List Char)
    (h : rest = [] ∨ ∃ c cs, rest = c :: cs ∧ numChar c = false) :
    tokAux [] (termChs t ++ rest) =
      (tokAux [] rest).map (fun ts => termToks t ++ ts) := by
  unfold termChs termToks
  rw [List.append_assoc,
    tokAux_natStr t.head _ (termChsTail_append_head t.factors rest h),
    tokenize_termTail t.factors rest h]
  cases tokAux [] rest <;> simp

/-- Tokenizing the additive tail. -/
theorem tokenize_exprTail (terms : List (AOp × Term)) :
    tokAux [] (exprChsTail terms) = some (exprToksTail terms) := by
  induction terms with
  | nil => rfl
  | cons p rest ih =>
    cases hp : p.1 with
    | add =>
      simp only [exprChsTail, hp, aopCh]
      rw [tok_plus,
        if_neg (by simp [headIs_termChs '+' (fun d => (digitCh_not_special d).2.2.2.2.2.1) p.2]),
        tokenize_termChs p.2 _ (exprChsTail_head rest), ih]
      simp [exprToksTail, hp, aopTok]
    | sub =>
      simp only [exprChsTail, hp, aopCh]
      rw [tok_minus,
        if_neg (by simp [headIs_termChs '-' (fun d => (digitCh_not_special d).2.2.2.2.2.2.1) p.2]),
        tokenize_termChs p.2 _ (exprChsTail_head rest), ih]
      simp [exprToksTail, hp, aopTok]

/-- Tokenizing a whole rendered well-formed expression. -/
theorem tokenize_exprChs (e : WFExpr) :
    tokenize (exprChs e) = some (exprToks e) := by
  unfold tokenize exprChs exprToks
  rw [tokenize_termChs e.head _ (exprChsTail_head e.terms), tokenize_exprTail]
  rfl

/-! ## Claim C3: the parser on a rendered expression -/

/-- A number token is one unary expression. -/
theorem parseUnary_num (f : ℕ) (q : Frac) (ts : List Tok) :
    parseUnary (f + 2) (.num q :: ts) = some (.val q, ts) := rfl

/-- One step of the additive loop at `+`. -/
theorem addLoop_plus (f : ℕ) (acc : JSNum) (rest : List Tok) :
    addLoop (f + 1) acc (.plus :: rest) =
      match parseMul f rest with
      | none => none
      | some (v, ts₁) => addLoop f (jadd acc v) ts₁ := rfl

/-- One step of the additive loop at `-`. -/
theorem addLoop_minus (f : ℕ) (acc : JSNum) (rest : List Tok) :
    addLoop (f + 1) acc (.minus :: rest) =
      match parseMul f rest with
      | none => none
      | some (v, ts₁) => addLoop f (jsub acc v) ts₁ := rfl

/-- One step of the multiplicative loop at `*`. -/
theorem mulLoop_star (f : ℕ) (acc : JSNum) (rest : List Tok) :
    mulLoop (f + 1) acc (.star :: rest) =
      match parseUnary f rest with
      | none => none
      | some (v, ts₁) => mulLoop f (jmul acc v) ts₁ := rfl

/-- One step of the multiplicative loop at `/`. -/
theorem mulLoop_slash (f : ℕ) (acc : JSNum) (rest : List Tok) :
    mulLoop (f + 1) acc (.slash :: rest) =
      match parseUnary f rest with
      | none => none
      | some (v, ts₁) => mulLoop f (jdiv acc v) ts₁ := rfl

/-- One step of `parseAdd`. -/
theorem parseAdd_succ (f : ℕ) (ts : List Tok) :
    parseAdd (f + 1) ts =
      match parseMul f ts with
      | none => none
      | some (v, ts₁) => addLoop f v ts₁ := rfl

/-- One step of `parseMul`. -/
theorem parseMul_succ (f : ℕ) (ts : List Tok) :
    parseMul (f + 1) ts =
      match parseUnary f ts with
      | none => none
      | some (v, ts₁) => mulLoop f v ts₁ := rfl

/-- The multiplicative loop stops at an additive operator or the end. -/
theorem mulLoop_stop (f : ℕ) (acc : JSNum) (ts : List Tok)
    (h : addStartTok ts) : mulLoop (f + 1) acc ts = some (acc, ts) := by
  rcases h with rfl | ⟨rest, rfl | rfl⟩ <;> rfl

/-- The multiplicative loop folds a factor tail left to right. -/
theorem mulLoop_chain (fs : List (MOp × ℕ)) (acc : JSNum) (f : ℕ)
    (ts : List Tok) (hts : addStartTok ts) (hf : 2 * fs.length + 1 ≤ f) :
    mulLoop f acc (termToksTail fs ++ ts) = some (foldFactors acc fs, ts) := by
  induction fs generalizing acc f with
  | nil =>
    obtain ⟨g, rfl⟩ : ∃ g, f = g + 1 := ⟨f - 1, by omega⟩
    simpa [termToksTail, foldFactors] using mulLoop_stop g acc ts hts
  | cons p fs ih =>
    obtain ⟨g, rfl⟩ : ∃ g, f = g + 3 := ⟨f - 3, by simp at hf; omega⟩
    cases hp : p.1 with
    | mul =>
      simp only [termToksTail, hp, mopTok, List.cons_append]
      rw [show g + 3 = (g + 2) + 1 from rfl, mulLoop_star, parseUnary_num]
      dsimp only
      rw [ih (jmul acc (.val (natFrac p.2))) (g + 2) (by simp at hf ⊢; omega)]
      simp [foldFactors, hp, applyM]
    | div =>
      simp only [termToksTail, hp, mopTok, List.cons_append]
      rw [show g + 3 = (g + 2) + 1 from rfl, mulLoop_slash, parseUnary_num]
      dsimp only
      rw [ih (jdiv acc (.val (natFrac p.2))) (g + 2) (by simp at hf ⊢; omega)]
      simp [foldFactors, hp, applyM]

/-- A term parses to its left-to-right multiplicative value. -/
theorem parseMul_term (t : Term) (f : ℕ) (ts : List Tok)
    (hts : addStartTok ts) (hf : 2 * t.factors.length + 4 ≤ f) :
    parseMul f (termToks t ++ ts) = some (evalTerm t, ts) := by
  obtain ⟨g, rfl⟩ : ∃ g, f = g + 3 := ⟨f - 3, by omega⟩
  simp only [termToks, List.cons_append]
  rw [show g + 3 = (g + 2) + 1 from rfl, parseMul_succ, parseUnary_num]
  dsimp only
  rw [mulLoop_chain t.factors _ (g + 2) ts hts (by omega)]
  rfl

/-- The additive tail always begins as an additive-loop stop. -/
theorem exprToksTail_addStart (terms : List (AOp × Term)) :
    addStartTok (exprToksTail terms) := by
  cases terms with
  | nil => exact Or.inl rfl
  | cons p rest =>
    right
    refine ⟨termToks p.2 ++ exprToksTail rest, ?_⟩
    cases hp : p.1 with
    | add => exact Or.inl (by simp [exprToksTail, aopTok, hp])
    | sub => exact Or.inr (by simp [exprToksTail, aopTok, hp])

/-- The additive loop folds the additive tail left to right. -/
theorem addLoop_chain (terms : List (AOp × Term)) (acc : JSNum) (f : ℕ)
    (hf : termsWeight terms ≤ f) :
    addLoop f acc (exprToksTail terms) = some (foldTerms acc terms, []) := by
  induction terms generalizing acc f with
  | nil =>
    obtain ⟨g, rfl⟩ : ∃ g, f = g + 1 := ⟨f - 1, by simp [termsWeight] at hf; omega⟩
    rfl
  | cons p rest ih =>
    obtain ⟨g, rfl⟩ : ∃ g, f = g + 1 :=
      ⟨f - 1, by simp [termsWeight] at hf; omega⟩
    cases hp : p.1 with
    | add =>
      simp only [exprToksTail, hp, aopTok]
      rw [addLoop_plus, parseMul_term p.2 g _ (exprToksTail_addStart rest)
        (by simp [termsWeight] at hf; omega)]
      rw [show (match (some (evalTerm p.2, exprToksTail rest) :
            Option (JSNum × List Tok)) with
          | none => none
          | some (v, ts₁) => addLoop g (jadd acc v) ts₁)
          = addLoop g (jadd acc (evalTerm p.2)) (exprToksTail rest) from rfl]
      rw [ih (jadd acc (evalTerm p.2)) g (by simp [termsWeight] at hf; omega)]
      simp [foldTerms, hp, applyA]
    | sub =>
      simp only [exprToksTail, hp, aopTok]
      rw [addLoop_minus, parseMul_term p.2 g _ (exprToksTail_addStart rest)
        (by simp [termsWeight] at hf; omega)]
      rw [show (match (some (evalTerm p.2, exprToksTail rest) :
            Option (JSNum × List Tok)) with
          | none => none
          | some (v, ts₁) => addLoop g (jsub acc v) ts₁)
          = addLoop g (jsub acc (evalTerm p.2)) (exprToksTail rest) from rfl]
      rw [ih (jsub acc (evalTerm p.2)) g (by simp [termsWeight] at hf; omega)]
      simp [foldTerms, hp, applyA]

/-- A rendered well-formed expression parses completely to its reference
value. -/
theorem parseAdd_exprToks (e : WFExpr) (f : ℕ)
    (hf : 2 * e.head.factors.length + 5 + termsWeight e.terms ≤ f) :
    parseAdd f (exprToks e) = some (evalWF e, []) := by
  obtain ⟨g, rfl⟩ : ∃ g, f = g + 1 := ⟨f - 1, by omega⟩
  simp only [exprToks]
  rw [parseAdd_succ,
    parseMul_term e.head g _ (exprToksTail_addStart e.terms) (by omega)]
  rw [show (match (some (evalTerm e.head, exprToksTail e.terms) :
        Option (JSNum × List Tok)) with
      | none => none
      | some (v, ts₁) => addLoop g v ts₁)
      = addLoop g (evalTerm e.head) (exprToksTail e.terms) from rfl]
  rw [addLoop_chain e.terms _ g (by omega)]
  rfl

/-! ## Claim C3: assembling the pipeline -/

/-- Mapping `glyphFix` over characters it fixes is the identity. -/
theorem map_glyphFix_id (l : List Char)
    (h : ∀ c ∈ l, glyphFix c = c) : l.map glyphFix = l := by
  induction l with
  | nil => rfl
  | cons c cs ih =>
    rw [List.map_cons, h c (List.mem_cons_self _ _),
      ih (fun x hx => h x (List.mem_cons_of_mem _ hx))]

/-- `glyphFix` fixes digits and operator characters. -/
theorem glyphFix_id (c : Char)
    (h : c.isDigit = true ∨ isOpChar c = true) : glyphFix c = c := by
  have h1 : c ≠ '×' := by
    rintro rfl
    rcases h with h | h <;> exact absurd h (by decide)
  have h2 : c ≠ '÷' := by
    rintro rfl
    rcases h with h | h <;> exact absurd h (by decide)
  simp [glyphFix, h1, h2]

/-- Characters of a factor tail. -/
theorem termChsTail_chars (fs : List (MOp × ℕ)) :
    ∀ c ∈ termChsTail fs, c.isDigit = true ∨ isOpChar c = true := by
  induction fs with
  | nil => simp [termChsTail]
  | cons p fs ih =>
    intro c hc
    rw [termChsTail, List.mem_cons] at hc
    rcases hc with rfl | hc
    · right; cases p.1 <;> decide
    · rcases List.mem_append.mp hc with hc | hc
      · obtain ⟨d, -, rfl⟩ := List.mem_map.mp hc
        left
        obtain ⟨-, -, -, -, -, -, -, -, -, -, h⟩ := digitCh_not_special d
        exact h
      · exact ih c hc

/-- Characters of a term. -/
theorem termChs_chars (t : Term) :
    ∀ c ∈ termChs t, c.isDigit = true ∨ isOpChar c = true := by
  intro c hc
  rcases List.mem_append.mp hc with hc | hc
  · obtain ⟨d, -, rfl⟩ := List.mem_map.mp hc
    left
    obtain ⟨-, -, -, -, -, -, -, -, -, -, h⟩ := digitCh_not_special d
    exact h
  · exact termChsTail_chars t.factors c hc

/-- Characters of the additive tail. -/
theorem exprChsTail_chars (terms : List (AOp × Term)) :
    ∀ c ∈ exprChsTail terms, c.isDigit = true ∨ isOpChar c = true := by
  induction terms with
  | nil => simp [exprChsTail]
  | cons p rest ih =>
    intro c hc
    rw [exprChsTail, List.mem_cons] at hc
    rcases hc with rfl | hc
    · right; cases p.1 <;> decide
    · rcases List.mem_append.mp hc with hc | hc
      · exact termChs_chars p.2 c hc
      · exact ih c hc

/-- Characters of a rendered expression. -/
theorem exprChs_chars (e : WFExpr) :
    ∀ c ∈ exprChs e, c.isDigit = true ∨ isOpChar c = true := by
  intro c hc
  rcases List.mem_append.mp hc with hc | hc
  · exact termChs_chars e.head c hc
  · exact exprChsTail_chars e.terms c hc

/-- A rendered expression is never empty. -/
theorem exprChs_ne_nil (e : WFExpr) : exprChs e ≠ [] := by
  unfold exprChs termChs
  intro h
  rw [List.append_assoc, List.append_eq_nil] at h
  exact natStr_ne_nil e.head.head h.1

/-- Length of a factor-tail token list. -/
theorem termToksTail_length (fs : List (MOp × ℕ)) :
    (termToksTail fs).length = 2 * fs.length := by
  induction fs with
  | nil => rfl
  | cons p fs ih =>
    simp only [termToksTail, List.length_cons, ih]
    omega

/-- The additive tail's fuel weight is bounded by its token count. -/
theorem termsWeight_le (terms : List (AOp × Term)) :
    termsWeight terms ≤ 3 * (exprToksTail terms).length + 1 := by
  induction terms with
  | nil => simp [termsWeight, exprToksTail]
  | cons p rest ih =>
    simp only [termsWeight, exprToksTail, termToks, List.length_cons,
      List.length_append, termToksTail_length] at *
    omega

/-- C3: `evaluateExpression` computes multiplication and division before
addition and subtraction with left-to-right associativity within each
precedence level: on every rendered well-formed expression over digits and
the four operators it agrees with the reference semantics that evaluates
each term's factors left to right and then combines the terms left to
right; in particular `"2+3*4"` gives `"14"` and `"2*3+4"` gives `"10"`. -/
theorem C3_precedence :
    (∀ e : WFExpr, evaluateExpression (renderExpr e) = jsDisplay (evalWF e)) ∧
    evaluateExpression "2+3*4" = "14" ∧
    evaluateExpression "2*3+4" = "10" := by
  refine ⟨fun e => ?_, by decide, by decide⟩
  have hchars := exprChs_chars e
  have hdata : cleanChars (renderExpr e) = exprChs e :=
    map_glyphFix_id (exprChs e) (fun c hc => glyphFix_id c (hchars c hc))
  have hne : (exprChs e).isEmpty = false := by
    rcases h : exprChs e with _ | ⟨c, cs⟩
    · exact absurd h (exprChs_ne_nil e)
    · rfl
  have hall : (exprChs e).all allowedChar = true := by
    rw [List.all_eq_true]
    intro c hc
    rcases hchars c hc with h | h
    · simp [allowedChar, h]
    · simp [allowedChar, h]
  have hfuel : 2 * e.head.factors.length + 5 + termsWeight e.terms ≤
      10 * ((exprToks e).length + 1) := by
    have h1 := termsWeight_le e.terms
    have h2 : (exprToks e).length =
        1 + 2 * e.head.factors.length + (exprToksTail e.terms).length := by
      simp only [exprToks, termToks, List.length_append, List.length_cons,
        termToksTail_length]
      omega
    omega
  unfold evaluateExpression evalOutcome
  rw [hdata, hne, if_neg (by simp), if_neg (by simp [hall]),
    tokenize_exprChs e]
  dsimp only
  rw [parseAdd_exprToks e _ hfuel]
  cases evalWF e <;> rfl

/-! ## Claim C8: the buffer alphabet invariant -/

/-- The defining equation of `noDoubleOp` on two or more characters. -/
theorem noDoubleOp_cons_cons (a b : Char) (l : List Char) :
    noDoubleOp (a :: b :: l) =
      (!(isOpChar a && isOpChar b) && noDoubleOp (b :: l)) := rfl

/-- Appending one character preserves `noDoubleOp` when the new pair is not
two operators. -/
theorem noDoubleOp_append (cs : List Char) (x : Char) (h : noDoubleOp cs = true)
    (hx : isOpChar x = false ∨ ∀ a, cs.getLast? = some a → isOpChar a = false) :
    noDoubleOp (cs ++ [x]) = true := by
  induction cs with
  | nil => simp [noDoubleOp]
  | cons c cs ih =>
    cases cs with
    | nil =>
      simp only [List.cons_append, List.nil_append, noDoubleOp_cons_cons]
      have hcx : (!(isOpChar c && isOpChar x)) = true := by
        rcases hx with hx | hx
        · simp [hx]
        · simp [hx c (by simp)]
      simp [hcx, noDoubleOp]
    | cons c₂ cs₂ =>
      rw [noDoubleOp_cons_cons, Bool.and_eq_true] at h
      have hx₂ : isOpChar x = false ∨
          ∀ a, (c₂ :: cs₂).getLast? = some a → isOpChar a = false := by
        rcases hx with hx | hx
        · exact Or.inl hx
        · exact Or.inr (fun a ha => hx a (by rw [List.getLast?_cons_cons]; exact ha))
      have h2 := ih h.2 hx₂
      rw [List.cons_append, List.cons_append, noDoubleOp_cons_cons]
      rw [List.cons_append] at h2
      simp [h.1, h2]

/-- Dropping the last character preserves `noDoubleOp`. -/
theorem noDoubleOp_dropLast (cs : List Char) (h : noDoubleOp cs = true) :
    noDoubleOp cs.dropLast = true := by
  induction cs with
  | nil => simp [noDoubleOp]
  | cons c cs ih =>
    cases cs with
    | nil => simp [noDoubleOp]
    | cons c₂ cs₂ =>
      rw [noDoubleOp_cons_cons, Bool.and_eq_true] at h
      rw [List.dropLast_cons₂]
      cases hdl : (c₂ :: cs₂).dropLast with
      | nil => simp [noDoubleOp]
      | cons d ds =>
        have hd : d = c₂ := by
          cases cs₂ with
          | nil => simp at hdl
          | cons c₃ cs₃ =>
            rw [List.dropLast_cons₂] at hdl
            exact (List.cons.injEq .. ▸ hdl).1.symm
        subst hd
        have h2 := ih h.2
        rw [hdl] at h2
        rw [noDoubleOp_cons_cons]
        simp [h.1, h2]

/-- In a `noDoubleOp` list ending in an operator, the character before the
last is not an operator. -/
theorem noDoubleOp_penult (cs : List Char) :
    noDoubleOp cs = true → ∀ a, cs.getLast? = some a → isOpChar a = true →
    ∀ x, cs.dropLast.getLast? = some x → isOpChar x = false := by
  induction cs with
  | nil => intro _ a ha _ x hx; simp at hx
  | cons c cs ih =>
    cases cs with
    | nil => intro _ a ha _ x hx; simp at hx
    | cons c₂ cs₂ =>
      intro h a ha hop x hx
      cases hcs : cs₂ with
      | nil =>
        subst hcs
        simp only [List.getLast?_cons_cons] at ha
        have ha' : c₂ = a := by simpa using ha
        subst ha'
        rw [List.dropLast_cons₂] at hx
        have hx' : c = x := by simpa using hx
        subst hx'
        rw [noDoubleOp_cons_cons, Bool.and_eq_true] at h
        have h1 := h.1
        rw [hop] at h1
        simp at h1
        simp [h1]
      | cons c₃ cs₃ =>
        subst hcs
        rw [noDoubleOp_cons_cons, Bool.and_eq_true] at h
        refine ih h.2 a ?_ hop x ?_
        · rw [← List.getLast?_cons_cons]
          exact ha
        · rw [List.dropLast_cons₂] at hx
          rw [List.dropLast_cons₂] at hx ⊢
          rw [List.getLast?_cons_cons] at hx
          exact hx

/-- `goodChars` split into its four conditions. -/
theorem goodChars_iff (cs : List Char) :
    goodChars cs = true ↔
      cs ≠ [] ∧ (∀ c, cs.head? = some c → isOpChar c = false) ∧
      cs.all bufChar = true ∧ noDoubleOp cs = true := by
  cases cs with
  | nil => simp [goodChars, noDoubleOp]
  | cons c cs =>
    simp only [goodChars, Bool.and_eq_true, Bool.not_eq_true']
    constructor
    · rintro ⟨⟨hop, hall⟩, hdbl⟩
      exact ⟨by simp, fun x hx => by simp at hx; rw [← hx]; exact hop, hall, hdbl⟩
    · rintro ⟨-, hhd, hall, hdbl⟩
      exact ⟨⟨hhd c (by simp), hall⟩, hdbl⟩

/-- Appending a buffer character that does not create a double operator
preserves the buffer invariant. -/
theorem goodChars_append (cs : List Char) (x : Char)
    (hg : goodChars cs = true) (hb : bufChar x = true)
    (hx : isOpChar x = false ∨ ∀ a, cs.getLast? = some a → isOpChar a = false) :
    goodChars (cs ++ [x]) = true := by
  obtain ⟨hne, hhd, hall, hdbl⟩ := (goodChars_iff cs).mp hg
  refine (goodChars_iff _).mpr ⟨by simp, ?_, ?_, noDoubleOp_append cs x hdbl hx⟩
  · intro c hc
    cases cs with
    | nil => exact absurd rfl hne
    | cons d cs' =>
      rw [List.cons_append, List.head?_cons] at hc
      have hcd : d = c := by simpa using hc
      subst hcd
      exact hhd d rfl
  · rw [List.all_append]
    simp [hall, hb]

/-- Dropping the last of at least two characters preserves the buffer
invariant. -/
theorem goodChars_dropLast (cs : List Char) (hg : goodChars cs = true)
    (hlen : 2 ≤ cs.length) : goodChars cs.dropLast = true := by
  obtain ⟨hne, hhd, hall, hdbl⟩ := (goodChars_iff cs).mp hg
  refine (goodChars_iff _).mpr
    ⟨?_, ?_, ?_, noDoubleOp_dropLast cs hdbl⟩
  · have : cs.dropLast.length = cs.length - 1 := List.length_dropLast cs
    intro h
    rw [h] at this
    simp at this
    omega
  · intro c hc
    apply hhd c
    cases cs with
    | nil => simp at hc
    | cons a cs' =>
      cases cs' with
      | nil => simp at hlen
      | cons b cs₂ =>
        rw [List.dropLast_cons₂] at hc
        simp at hc ⊢
        exact hc
  · rw [List.all_eq_true] at hall ⊢
    exact fun x hx => hall x ((List.dropLast_sublist cs).subset hx)

/-! ## Claim C8: the input reducer preserves the invariant -/

/-- The four operator characters. -/
theorem isOpChar_cases (c : Char) (h : isOpChar c = true) :
    c = '+' ∨ c = '-' ∨ c = '*' ∨ c = '/' := by
  unfold isOpChar at h
  simp only [Bool.or_eq_true, decide_eq_true_eq] at h
  tauto

/-- A buffer not ending in an operator has a non-operator last character. -/
theorem endsWithOp_false_last (s : String) (h : endsWithOp s = false) :
    ∀ a, s.data.getLast? = some a → isOpChar a = false := by
  intro a ha
  unfold endsWithOp at h
  rw [ha] at h
  simpa using h

/-- A good buffer ending in an operator has at least two characters. -/
theorem good_endsOp_len (s : String) (hg : goodBuf s = true)
    (he : endsWithOp s = true) : 2 ≤ s.data.length := by
  obtain ⟨hne, hhd, -, -⟩ := (goodChars_iff s.data).mp hg
  rcases hd : s.data with _ | ⟨c, cs⟩
  · exact absurd hd hne
  · cases cs with
    | nil =>
      exfalso
      unfold endsWithOp at he
      rw [hd] at he
      simp only [List.getLast?_singleton] at he
      have hc := hhd c (by rw [hd]; rfl)
      rw [hc] at he
      exact Bool.false_ne_true he
    | cons c₂ cs₂ => simp [hd]

/-- A non-operator single-character press preserves the buffer invariant
through the input reducer. -/
theorem applyInput_good_nonop (prev res v : String) (c : Char) (jc : Bool)
    (hv : v.data = [c]) (hb : bufChar c = true) (hco : isOpChar c = false)
    (hg : goodBuf prev = true) :
    goodBuf (applyInput prev res jc v) = true := by
  have hco' : containsOp v = false := by
    unfold containsOp
    rw [hv]
    simp [hco]
  have hsingle : goodBuf v = true := by
    unfold goodBuf
    rw [hv]
    simp [goodChars, noDoubleOp, hb, hco]
  unfold applyInput
  split_ifs with h1 h2 h3 h4 h5
  · exact hsingle
  · rw [hco'] at h2; simp at h2
  · exact hsingle
  · rw [hco'] at h4; simp at h4
  · exact hg
  · unfold goodBuf
    rw [String.data_append, hv]
    exact goodChars_append prev.data c hg hb (Or.inl hco)

/-- An operator press with the just-calculated flag clear preserves the
buffer invariant through the input reducer. -/
theorem applyInput_good_op (prev res v : String) (c : Char)
    (hv : v.data = [c]) (hb : bufChar c = true) (hco : isOpChar c = true)
    (hg : goodBuf prev = true) :
    goodBuf (applyInput prev res false v) = true := by
  have hcd : containsDigit v = false := by
    unfold containsDigit
    rw [hv]
    rcases isOpChar_cases c hco with rfl | rfl | rfl | rfl <;> decide
  have hcov : containsOp v = true := by
    unfold containsOp
    rw [hv]
    simp [hco]
  have hdot : (v == ".") = false := by
    apply beq_eq_false_iff_ne.mpr
    intro hveq
    rw [hveq] at hv
    rcases isOpChar_cases c hco with rfl | rfl | rfl | rfl <;> simp at hv
  unfold applyInput
  simp only [Bool.false_and, Bool.false_eq_true, if_false, hcd, hcov, hdot,
    Bool.and_false, Bool.and_true]
  by_cases he : endsWithOp prev = true
  · rw [if_pos he]
    obtain ⟨a, hgl, haop⟩ : ∃ a, prev.data.getLast? = some a ∧ isOpChar a = true := by
      unfold endsWithOp at he
      rcases hgl : prev.data.getLast? with _ | a
      · rw [hgl] at he; simp at he
      · rw [hgl] at he; exact ⟨a, rfl, by simpa using he⟩
    have hdbl : noDoubleOp prev.data = true := ((goodChars_iff _).mp hg).2.2.2
    unfold goodBuf dropLastStr
    rw [String.data_append, hv]
    exact goodChars_append _ c
      (goodChars_dropLast prev.data hg (good_endsOp_len prev hg he)) hb
      (Or.inr (noDoubleOp_penult prev.data hdbl a hgl haop))
  · have he' : endsWithOp prev = false := by
      cases h : endsWithOp prev
      · rfl
      · exact absurd h he
    rw [if_neg he]
    unfold goodBuf
    rw [String.data_append, hv]
    exact goodChars_append prev.data c hg hb
      (Or.inr (endsWithOp_false_last prev he'))

/-- Any press other than `=` clears the just-calculated flag. -/
theorem press_jc_false (now : ℕ) (v : String) (s : CalcState)
    (hv : v ≠ "=") : (handleButtonPress now v s).justCalculated = false := by
  by_cases h1 : v = "C"
  · subst h1; rfl
  · by_cases h2 : v = "DEL"
    · subst h2; rfl
    · rw [press_input now v s h1 h2 hv]

/-- One keypress preserves the buffer invariant provided an operator key is
only pressed with the just-calculated flag clear. -/
theorem goodBuf_press (now : ℕ) (v : String) (s : CalcState)
    (hmem : v ∈ keyList)
    (hop : opKeys.contains v = true → s.justCalculated = false)
    (hg : goodBuf s.expression = true) :
    goodBuf ((handleButtonPress now v s).expression) = true := by
  have heq : ∀ hsec : s.expression ≠ "69/67",
      goodBuf ((handleButtonPress now "=" s).expression) = true := by
    intro hsec
    rw [press_equals_expr now s hsec]
    exact hg
  fin_cases hmem
  · exact (by decide : goodBuf ("0" : String) = true)
  · rw [show (handleButtonPress now "DEL" s).expression =
        (if s.expression.data.length ≤ 1 then "0"
         else dropLastStr s.expression) from rfl]
    split_ifs with hlen
    · decide
    · unfold goodBuf dropLastStr
      exact goodChars_dropLast s.expression.data hg (by omega)
  · rw [press_input_expr now "/" s (by decide) (by decide) (by decide),
      hop (by decide)]
    exact applyInput_good_op s.expression s.result "/" '/' (by decide)
      (by decide) (by decide) hg
  · rw [press_input_expr now "*" s (by decide) (by decide) (by decide),
      hop (by decide)]
    exact applyInput_good_op s.expression s.result "*" '*' (by decide)
      (by decide) (by decide) hg
  · rw [press_input_expr now "7" s (by decide) (by decide) (by decide)]
    exact applyInput_good_nonop s.expression s.result "7" '7' _ (by decide)
      (by decide) (by decide) hg
  · rw [press_input_expr now "8" s (by decide) (by decide) (by decide)]
    exact applyInput_good_nonop s.expression s.result "8" '8' _ (by decide)
      (by decide) (by decide) hg
  · rw [press_input_expr now "9" s (by decide) (by decide) (by decide)]
    exact applyInput_good_nonop s.expression s.result "9" '9' _ (by decide)
      (by decide) (by decide) hg
  · rw [press_input_expr now "-" s (by decide) (by decide) (by decide),
      hop (by decide)]
    exact applyInput_good_op s.expression s.result "-" '-' (by decide)
      (by decide) (by decide) hg
  · rw [press_input_expr now "4" s (by decide) (by decide) (by decide)]
    exact applyInput_good_nonop s.expression s.result "4" '4' _ (by decide)
      (by decide) (by decide) hg
  · rw [press_input_expr now "5" s (by decide) (by decide) (by decide)]
    exact applyInput_good_nonop s.expression s.result "5" '5' _ (by decide)
      (by decide) (by decide) hg
  · rw [press_input_expr now "6" s (by decide) (by decide) (by decide)]
    exact applyInput_good_nonop s.expression s.result "6" '6' _ (by decide)
      (by decide) (by decide) hg
  · rw [press_input_expr now "+" s (by decide) (by decide) (by decide),
      hop (by decide)]
    exact applyInput_good_op s.expression s.result "+" '+' (by decide)
      (by decide) (by decide) hg
  · rw [press_input_expr now "1" s (by decide) (by decide) (by decide)]
    exact applyInput_good_nonop s.expression s.result "1" '1' _ (by decide)
      (by decide) (by decide) hg
  · rw [press_input_expr now "2" s (by decide) (by decide) (by decide)]
    exact applyInput_good_nonop s.expression s.result "2" '2' _ (by decide)
      (by decide) (by decide) hg
  · rw [press_input_expr now "3" s (by decide) (by decide) (by decide)]
    exact applyInput_good_nonop s.expression s.result "3" '3' _ (by decide)
      (by decide) (by decide) hg
  · by_cases hsec : s.expression = "69/67"
    · rw [press_secret now s hsec]
      exact (by decide : goodBuf ("0" : String) = true)
    · exact heq hsec
  · rw [press_input_expr now "0" s (by decide) (by decide) (by decide)]
    exact applyInput_good_nonop s.expression s.result "0" '0' _ (by decide)
      (by decide) (by decide) hg
  · rw [press_input_expr now "." s (by decide) (by decide) (by decide)]
    exact applyInput_good_nonop s.expression s.result "." '.' _ (by decide)
      (by decide) (by decide) hg

/-- The buffer invariant holds along any press sequence in which operator
keys never immediately follow `=`. -/
theorem goodBuf_pressSeq (ps : List (ℕ × String)) :
    ∀ (b : Bool) (s : CalcState), goodBuf s.expression = true →
      (s.justCalculated = true → b = true) → okKeys b ps = true →
      goodBuf (pressSeq ps s).expression = true := by
  induction ps with
  | nil =>
    intro b s hg _ _
    exact hg
  | cons p ps ih =>
    intro b s hg hjc hok
    obtain ⟨now, v⟩ := p
    simp only [okKeys, Bool.and_eq_true] at hok
    obtain ⟨⟨hmem, hnotop⟩, hrest⟩ := hok
    have hmem' : v ∈ keyList := by
      have := hmem
      unfold List.contains at this
      exact List.elem_iff.mp this
    have hstep : goodBuf ((handleButtonPress now v s).expression) = true := by
      apply goodBuf_press now v s hmem' ?_ hg
      intro hopv
      cases hsjc : s.justCalculated with
      | false => rfl
      | true =>
        exfalso
        rw [hjc hsjc, hopv] at hnotop
        simp at hnotop
    rw [show pressSeq ((now, v) :: ps) s
        = pressSeq ps (handleButtonPress now v s) from rfl]
    apply ih (v == "=") _ hstep ?_ hrest
    intro hjc'
    by_cases hv : v = "="
    · simp [hv]
    · rw [press_jc_false now v s hv] at hjc'
      exact absurd hjc' (by simp)

/-- C8 counterexample: the claimed invariant fails on the code.  All five
presses are calculator buttons; after `5 / 0 =` the displayed result is
`"Error"`, and the next `+` press sets the buffer to `"Error+"`, which
contains characters outside the alphabet `{0-9, '.', '+', '-', '*', '/'}`. -/
theorem C8_counterexample :
    ("5" ∈ keyList ∧ "/" ∈ keyList ∧ "0" ∈ keyList ∧ "=" ∈ keyList ∧
      "+" ∈ keyList) ∧
    (pressSeq [(0, "5"), (0, "/"), (0, "0"), (1, "="), (2, "+")]
      initState).expression = "Error+" ∧
    goodBuf "Error+" = false := by
  refine ⟨by decide, by decide, by decide⟩

/-- C8 (amended): starting from the initial buffer `"0"`, the invariant —
non-empty, alphabet `{0-9, '.', '+', '-', '*', '/'}`, no leading operator,
no two consecutive operators — is preserved by every keypress sequence of
calculator buttons in which no operator key is pressed immediately after an
`=` press (such a press copies the displayed result, which can be `"Error"`
or a negative number, into the buffer). -/
theorem C8_buffer_invariant (ps : List (ℕ × String))
    (hok : okKeys false ps = true) :
    goodBuf (pressSeq ps initState).expression = true :=
  goodBuf_pressSeq ps false initState (by decide)
    (fun h => absurd h (by decide)) hok

/-- Witness for the amended C8 at a concrete press sequence containing an
evaluation. -/
theorem C8_buffer_invariant_witness :
    goodBuf (pressSeq [(0, "5"), (0, "+"), (0, "3"), (1, "="), (2, "7")]
      initState).expression = true :=
  C8_buffer_invariant [(0, "5"), (0, "+"), (0, "3"), (1, "="), (2, "7")]
    (by decide)

end SecretCalc
